import Mathlib

/-!
# Verification of the DNS resolver contract (`features/netsocket/DNS.h`)

The repository declares a single abstract interface `class DNS` with four
pure-virtual operations (`gethostbyname`, `gethostbyname_async`,
`gethostbyname_async_cancel`, `add_dns_server`) and one callback shape
(`hostbyname_cb_t`).  No implementation is part of the repository: the
behaviour is fixed only by the doc comments of the header and by the
accompanying specification.  We therefore build an operational model of a
resolver that satisfies the documented contract — states, the four
operations, and a small-step event-trace semantics — and prove the
contract's claims over every reachable trace of that model.
-/

namespace DnsModel

/-- Modelled from the spec: `nsapi_version_t`, the IP version tag.
`UNSPEC` delegates the family choice to the stack (the header is missing
`nsapi_types.h`; only the tag names and their role are documented). -/
inductive NsapiVersion where
  | V4
  | V6
  | UNSPEC
deriving DecidableEq, Repr

/-- Modelled from the spec: the family tag carried by an address value. -/
inductive IpFamily where
  | V4
  | V6
deriving DecidableEq, Repr

/-- Modelled from the spec: `SocketAddress`, a value carrying a family tag,
numeric address bytes (4 for V4, 16 for V6) and an optional port (0 when
absent).  The class itself is not part of the repository. -/
structure SocketAddress where
  family : IpFamily
  bytes : List Nat
  port : Nat
deriving DecidableEq, Repr

/-- Modelled from the spec: `NSAPI_ERROR_OK`, the success code. -/
def NSAPI_ERROR_OK : Int := 0

/-- Modelled from the spec: the negative error code returned for an invalid
argument (null/empty hostname, unknown cancel handle).  The error constants
live in `nsapi_types.h`, outside the repository; the contract fixes only the
sign. -/
def NSAPI_ERROR_PARAMETER : Int := -3003

/-- Modelled from the spec: the negative error code for a failed name
resolution (`NameResolutionFailure`). -/
def NSAPI_ERROR_DNS_FAILURE : Int := -3009

/-! ## Textual IP literals

Modelled from the spec: the Resolver must recognise textual IP literals
without I/O ("Text parsing: ability to recognize IPv4 and IPv6 literals").
The concrete parser is a collaborator outside the repository; we supply an
executable model: dotted-quad decimal for IPv4 and eight colon-separated
hexadecimal groups for IPv6. -/

/-- Split a character list on a separator character.  `splitOnChar c l`
always returns a non-empty list of (possibly empty) chunks. -/
def splitOnChar (c : Char) : List Char → List (List Char)
  | [] => [[]]
  | x :: xs =>
    let r := splitOnChar c xs
    if x = c then [] :: r
    else
      match r with
      | [] => [[x]]
      | y :: ys => (x :: y) :: ys

/-- Decimal digit value of a character, if it is a digit. -/
def digitVal (c : Char) : Option Nat :=
  if '0' ≤ c ∧ c ≤ '9' then some (c.toNat - 48) else none

/-- Hexadecimal digit value of a character, if it is a hex digit. -/
def hexDigitVal (c : Char) : Option Nat :=
  if '0' ≤ c ∧ c ≤ '9' then some (c.toNat - 48)
  else if 'a' ≤ c ∧ c ≤ 'f' then some (c.toNat - 87)
  else if 'A' ≤ c ∧ c ≤ 'F' then some (c.toNat - 55)
  else none

/-- Value of a non-empty string of decimal digits. -/
def decVal (cs : List Char) : Option Nat :=
  if cs.isEmpty then none
  else
    cs.foldl
      (fun acc c =>
        match acc, digitVal c with
        | some a, some d => some (a * 10 + d)
        | _, _ => none)
      (some 0)

/-- Value of a non-empty string of hexadecimal digits. -/
def hexVal (cs : List Char) : Option Nat :=
  if cs.isEmpty then none
  else
    cs.foldl
      (fun acc c =>
        match acc, hexDigitVal c with
        | some a, some d => some (a * 16 + d)
        | _, _ => none)
      (some 0)

/-- One decimal octet of a dotted quad: at most three digits, value ≤ 255. -/
def parseOctet (cs : List Char) : Option Nat :=
  if cs.length ≤ 3 then
    match decVal cs with
    | some v => if v ≤ 255 then some v else none
    | none => none
  else none

/-- One hexadecimal group of an IPv6 literal: at most four digits,
value ≤ 0xFFFF. -/
def parseGroup (cs : List Char) : Option Nat :=
  if cs.length ≤ 4 then
    match hexVal cs with
    | some v => if v ≤ 65535 then some v else none
    | none => none
  else none

/-- Dotted-quad IPv4 literal: exactly four octets separated by dots. -/
def parseIPv4 (cs : List Char) : Option (List Nat) :=
  match splitOnChar '.' cs with
  | [a, b, c, d] =>
    match parseOctet a, parseOctet b, parseOctet c, parseOctet d with
    | some va, some vb, some vc, some vd => some [va, vb, vc, vd]
    | _, _, _, _ => none
  | _ => none

/-- IPv6 literal: exactly eight hexadecimal groups separated by colons
(the model omits `::` compression).  Each group contributes two bytes. -/
def parseIPv6 (cs : List Char) : Option (List Nat) :=
  match (splitOnChar ':' cs).mapM parseGroup with
  | some gs => if gs.length = 8 then some (gs.flatMap (fun g => [g / 256, g % 256])) else none
  | none => none

/-- Modelled from the spec: parse a hostname string as a textual IP literal
of either family, port 0. -/
def ipLiteral (host : String) : Option SocketAddress :=
  match parseIPv4 host.toList with
  | some bs => some ⟨IpFamily.V4, bs, 0⟩
  | none =>
    match parseIPv6 host.toList with
    | some bs => some ⟨IpFamily.V6, bs, 0⟩
    | none => none

/-- Does an address family satisfy a requested version?  `UNSPEC` accepts
any family. -/
def versionMatches (v : NsapiVersion) (f : IpFamily) : Bool :=
  match v with
  | NsapiVersion.UNSPEC => true
  | NsapiVersion.V4 => f = IpFamily.V4
  | NsapiVersion.V6 => f = IpFamily.V6

/-- Parse a hostname as an IP literal of the requested family
(any family when the version is `UNSPEC`). -/
def ipLiteralOf (v : NsapiVersion) (host : String) : Option SocketAddress :=
  match ipLiteral host with
  | some a => if versionMatches v a.family then some a else none
  | none => none

/-! ## Resolver state

Modelled from the spec: the Resolver owns the upstream server list and the
in-flight operation table ("Shared resources", §5).  An operation record
binds a positive handle to the callback registered at submission; callbacks
are identified by the order of submission (`cbId`), since each submission
carries its own bound callable. -/

/-- Modelled from the spec: the callback record — a bound callable together
with the operation handle it belongs to.  The callable itself is abstract;
`cbId` identifies the submission that bound it. -/
structure OpRecord where
  handle : Nat
  cbId : Nat
deriving DecidableEq, Repr

/-- Modelled from the spec: the Resolver's state — the in-flight operation
table, the next fresh handle (positive) and callback identifier, the
upstream DNS server list, the resolver cache, and the name records the
upstream servers would answer with (the abstract network environment). -/
structure ResolverState where
  outstanding : List OpRecord
  nextHandle : Nat
  nextCb : Nat
  servers : List SocketAddress
  cache : List (String × SocketAddress)
  upstreamAnswers : List (String × SocketAddress)
deriving DecidableEq, Repr

/-- The initial resolver state: no operation in flight, handles start at 1,
callback identifiers at 0; the server list, cache and upstream answer table
are parameters of the run. -/
def initState (servers : List SocketAddress)
    (cache upstreamAnswers : List (String × SocketAddress)) : ResolverState :=
  ⟨[], 1, 0, servers, cache, upstreamAnswers⟩

/-! ## Observable events

Each resolver step emits the events a caller can observe, in the order they
happen: a submission returning its discriminant, a callback invocation with
its result, a cancel call returning its code. -/

/-- An observable event of a resolver run. -/
inductive Event where
  | submitted (cbId : Nat) (ret : Int)
  | callbackFired (cbId : Nat) (result : Int)
  | cancelReturned (id : Int) (ret : Int)
deriving DecidableEq, Repr

/-- Is `e` a callback invocation of the callback bound by submission `c`? -/
def isFiredFor (c : Nat) : Event → Bool
  | Event.callbackFired c' _ => c' = c
  | _ => false

/-- Is `e` the return of the submission that bound callback `c`? -/
def isSubmitFor (c : Nat) : Event → Bool
  | Event.submitted c' _ => c' = c
  | _ => false

/-- Is `e` a submission returning the (positive) handle `h`? -/
def isSubmitHandle (h : Nat) : Event → Bool
  | Event.submitted _ r => r = (h : Int)
  | _ => false

/-- Is `e` a successful cancel of handle `h`? -/
def isCancelOkFor (h : Nat) : Event → Bool
  | Event.cancelReturned id r => id = (h : Int) && r = 0
  | _ => false

/-- Number of invocations of the callback bound by submission `c`. -/
def firedCount (tr : List Event) (c : Nat) : Nat := tr.countP (isFiredFor c)

/-- Number of submission returns for callback `c`. -/
def submitCount (tr : List Event) (c : Nat) : Nat := tr.countP (isSubmitFor c)

/-- Number of submissions that returned handle `h`. -/
def submitHandleCount (tr : List Event) (h : Nat) : Nat := tr.countP (isSubmitHandle h)

/-- Number of successful cancels of handle `h`. -/
def cancelOkCount (tr : List Event) (h : Nat) : Nat := tr.countP (isCancelOkFor h)

/-- Invocations of callback `c` that happen strictly before the submission
that bound `c` returns 0 (the success sentinel). -/
def firedBeforeReturn (tr : List Event) (c : Nat) : Nat :=
  firedCount (tr.takeWhile (fun e => !(e == Event.submitted c 0))) c

/-! ## The four operations

`gethostbyname_async`, `gethostbyname_async_cancel`, `gethostbyname` and
`add_dns_server` keep the names of the virtual methods of `class DNS`.
Their behaviour is modelled from the spec: the header declares only the
contract. -/

/-- Modelled from the spec: the immediate-completion test of the
asynchronous path — a textual IP literal of the requested family, or a
cache hit whose cached family satisfies the requested version. -/
def immediateAnswer (s : ResolverState) (host : String) (v : NsapiVersion) :
    Option SocketAddress :=
  match ipLiteralOf v host with
  | some a => some a
  | none =>
    match s.cache.find? (fun p => p.1 == host && versionMatches v p.2.family) with
    | some p => some p.2
    | none => none

/-- Modelled from the spec: `gethostbyname_async`.  Returns the integer
discriminant, the events the call emits (in order), and the state after the
call.  An empty hostname is an invalid argument and fails synchronously
without invoking the callback; an immediate answer (literal or cache hit)
invokes the callback once before returning 0 and issues no handle; otherwise
a fresh positive handle is issued and the operation is recorded in flight. -/
def gethostbyname_async (s : ResolverState) (host : String) (v : NsapiVersion) :
    Int × List Event × ResolverState :=
  if host = "" then
    (NSAPI_ERROR_PARAMETER,
     [Event.submitted s.nextCb NSAPI_ERROR_PARAMETER],
     { s with nextCb := s.nextCb + 1 })
  else
    match immediateAnswer s host v with
    | some _ =>
      (NSAPI_ERROR_OK,
       [Event.callbackFired s.nextCb 0, Event.submitted s.nextCb 0],
       { s with nextCb := s.nextCb + 1 })
    | none =>
      ((s.nextHandle : Int),
       [Event.submitted s.nextCb (s.nextHandle : Int)],
       { s with
           outstanding := s.outstanding ++ [⟨s.nextHandle, s.nextCb⟩],
           nextHandle := s.nextHandle + 1,
           nextCb := s.nextCb + 1 })

/-- Modelled from the spec: `gethostbyname_async_cancel`.  If the handle is
still outstanding the record is retired and 0 is returned; otherwise
(unknown, completed or already cancelled handle) a negative error is
returned and the state is untouched. -/
def gethostbyname_async_cancel (s : ResolverState) (id : Int) : Int × ResolverState :=
  if s.outstanding.any (fun r => (r.handle : Int) == id) then
    (NSAPI_ERROR_OK,
     { s with outstanding := s.outstanding.filter (fun r => !((r.handle : Int) == id)) })
  else
    (NSAPI_ERROR_PARAMETER, s)

/-- The result a synchronous resolve hands back to its caller: the return
code, what was written through the destination pointer (`none` = the
destination was not touched), and how many DNS datagrams were sent. -/
structure SyncResult where
  ret : Int
  written : Option SocketAddress
  datagrams : Nat
deriving DecidableEq, Repr

/-- Modelled from the spec: a DNS query over the configured upstream
servers, constrained to the requested family.  With no server configured no
answer can be obtained; otherwise the first acceptable upstream answer is
returned. -/
def dnsQuery (s : ResolverState) (host : String) (v : NsapiVersion) :
    Option SocketAddress :=
  if s.servers.isEmpty then none
  else
    match s.upstreamAnswers.find? (fun p => p.1 == host && versionMatches v p.2.family) with
    | some p => some p.2
    | none => none

/-- Modelled from the spec: synchronous `gethostbyname`.  A textual IP
literal of the requested family is returned without any network
transaction; otherwise the configured upstream servers are queried and the
first acceptable answer fills the destination (and is cached); on failure
the destination is untouched and a negative error is returned. -/
def gethostbyname (s : ResolverState) (host : String) (v : NsapiVersion) :
    SyncResult × ResolverState :=
  match ipLiteralOf v host with
  | some a => (⟨NSAPI_ERROR_OK, some a, 0⟩, s)
  | none =>
    match dnsQuery s host v with
    | some a =>
      (⟨NSAPI_ERROR_OK, some a, 1⟩, { s with cache := s.cache ++ [(host, a)] })
    | none =>
      (⟨NSAPI_ERROR_DNS_FAILURE, none, s.servers.length⟩, s)

/-- Modelled from the spec: `add_dns_server` appends the given address to
the upstream server list (the model does not bound the list). -/
def add_dns_server (s : ResolverState) (a : SocketAddress) : Int × ResolverState :=
  (NSAPI_ERROR_OK, { s with servers := s.servers ++ [a] })

/-! ## Small-step semantics

A step is one of: a call to `gethostbyname_async`; the arrival (or
definitive failure) of the underlying query of an outstanding operation,
which fires its callback and retires it; a call to
`gethostbyname_async_cancel`; a call to synchronous `gethostbyname`; a call
to `add_dns_server`.  Each step emits its observable events in order. -/

/-- One step of the resolver, emitting its observable events. -/
inductive Step : ResolverState → List Event → ResolverState → Prop where
  | submit (s : ResolverState) (host : String) (v : NsapiVersion) :
      Step s (gethostbyname_async s host v).2.1 (gethostbyname_async s host v).2.2
  | response (s : ResolverState) (r : OpRecord) (result : Int)
      (hmem : r ∈ s.outstanding) (hres : result ≤ 0) :
      Step s [Event.callbackFired r.cbId result]
        { s with outstanding := s.outstanding.filter (fun q => !(q.handle == r.handle)) }
  | cancel (s : ResolverState) (id : Int) :
      Step s [Event.cancelReturned id (gethostbyname_async_cancel s id).1]
        (gethostbyname_async_cancel s id).2
  | sync (s : ResolverState) (host : String) (v : NsapiVersion) :
      Step s [] (gethostbyname s host v).2
  | addServer (s : ResolverState) (a : SocketAddress) :
      Step s [] (add_dns_server s a).2

/-- A finite run of the resolver: the reflexive-transitive closure of
`Step`, accumulating the emitted events. -/
inductive Trace : ResolverState → List Event → ResolverState → Prop where
  | refl (s : ResolverState) : Trace s [] s
  | step {s₀ s₁ s₂ : ResolverState} {tr evs : List Event} :
      Trace s₀ tr s₁ → Step s₁ evs s₂ → Trace s₀ (tr ++ evs) s₂

/-! ## Invariants -/

/-- The handles of the in-flight operation table. -/
def handlesOf (s : ResolverState) : List Nat := s.outstanding.map OpRecord.handle

/-- The callback identifiers of the in-flight operation table. -/
def cbsOf (s : ResolverState) : List Nat := s.outstanding.map OpRecord.cbId

/-- Number of in-flight records bound to callback `c`. -/
def recCount (s : ResolverState) (c : Nat) : Nat :=
  s.outstanding.countP (fun r => r.cbId == c)

/-- Structural invariant of a reachable resolver state: outstanding handles
are pairwise distinct and positive, callback identifiers are pairwise
distinct, and both stay below the respective fresh counters. -/
structure StateInv (s : ResolverState) : Prop where
  nodupH : (handlesOf s).Nodup
  nodupC : (cbsOf s).Nodup
  hpos : ∀ r ∈ s.outstanding, 0 < r.handle
  hlt : ∀ r ∈ s.outstanding, r.handle < s.nextHandle
  clt : ∀ r ∈ s.outstanding, r.cbId < s.nextCb
  hstart : 0 < s.nextHandle

/-- History invariant tying a reachable state to the event trace that led
to it.  `outcomeZero`, `outcomeNeg` and `outcomePos` are the three-way
return discriminant of the asynchronous submission; the remaining fields
are freshness and uniqueness bookkeeping. -/
structure TraceInv (tr : List Event) (s : ResolverState) : Prop where
  subFresh : ∀ c, s.nextCb ≤ c → submitCount tr c = 0
  fireFresh : ∀ c, s.nextCb ≤ c → firedCount tr c = 0
  handleFreshSub : ∀ h, s.nextHandle ≤ h → submitHandleCount tr h = 0
  handleFreshCancel : ∀ h, s.nextHandle ≤ h → cancelOkCount tr h = 0
  subOnce : ∀ c, submitCount tr c ≤ 1
  cancelOnce : ∀ h, 0 < h → cancelOkCount tr h ≤ 1
  recsSubmitted : ∀ r ∈ s.outstanding, Event.submitted r.cbId (r.handle : Int) ∈ tr
  handleBinding : ∀ (c c' h : Nat), 0 < h → Event.submitted c (h : Int) ∈ tr →
    Event.submitted c' (h : Int) ∈ tr → c = c'
  outcomeZero : ∀ c, Event.submitted c 0 ∈ tr →
    firedCount tr c = 1 ∧ firedBeforeReturn tr c = 1 ∧ recCount s c = 0
  outcomeNeg : ∀ c ret, Event.submitted c ret ∈ tr → ret < 0 →
    firedCount tr c = 0 ∧ recCount s c = 0
  outcomePos : ∀ (c h : Nat), Event.submitted c (h : Int) ∈ tr → 0 < h →
    (OpRecord.mk h c ∈ s.outstanding ∧ firedCount tr c = 0 ∧ cancelOkCount tr h = 0)
    ∨ (recCount s c = 0 ∧ firedCount tr c + cancelOkCount tr h = 1)
  notSubmitted : ∀ c, submitCount tr c = 0 → firedCount tr c = 0 ∧ recCount s c = 0

end DnsModel

namespace DnsModel

/-! ## General list helpers -/

/-- Two distinct members both satisfying a predicate force a count of at
least two. -/
theorem two_mem_le_countP {α : Type} (p : α → Bool) :
    ∀ (l : List α) (a b : α), a ∈ l → b ∈ l → a ≠ b → p a → p b → 2 ≤ l.countP p := by
  intro l
  induction l with
  | nil => intro a b ha _ _ _ _; exact absurd ha (List.not_mem_nil a)
  | cons x xs ih =>
    intro a b ha hb hab hpa hpb
    rcases List.mem_cons.mp ha with rfl | ha'
    · rcases List.mem_cons.mp hb with rfl | hb'
      · exact absurd rfl hab
      · have h1 : 0 < xs.countP p := List.countP_pos_iff.mpr ⟨b, hb', hpb⟩
        rw [List.countP_cons, if_pos hpa]
        omega
    · rcases List.mem_cons.mp hb with rfl | hb'
      · have h1 : 0 < xs.countP p := List.countP_pos_iff.mpr ⟨a, ha', hpa⟩
        rw [List.countP_cons, if_pos hpb]
        omega
      · have h1 := ih a b ha' hb' hab hpa hpb
        rw [List.countP_cons]
        split <;> omega

/-- One member satisfying a predicate forces a positive count. -/
theorem mem_le_countP {α : Type} (p : α → Bool) (l : List α) (a : α)
    (ha : a ∈ l) (hpa : p a) : 0 < l.countP p :=
  List.countP_pos_iff.mpr ⟨a, ha, hpa⟩

/-- `takeWhile` over an extended list is stable once the first list already
holds an element breaking the predicate. -/
theorem takeWhile_append_stable {α : Type} (p : α → Bool) :
    ∀ (l₁ l₂ : List α), (∃ a ∈ l₁, ¬ p a) →
      (l₁ ++ l₂).takeWhile p = l₁.takeWhile p := by
  intro l₁
  induction l₁ with
  | nil =>
    intro l₂ h
    obtain ⟨a, ha, _⟩ := h
    exact absurd ha (List.not_mem_nil a)
  | cons x xs ih =>
    intro l₂ h
    by_cases hx : p x
    · rw [List.cons_append, List.takeWhile_cons_of_pos hx, List.takeWhile_cons_of_pos hx]
      obtain ⟨a, ha, hpa⟩ := h
      rcases List.mem_cons.mp ha with rfl | ha'
      · exact absurd hx hpa
      · rw [ih l₂ ⟨a, ha', hpa⟩]
    · rw [List.cons_append, List.takeWhile_cons_of_neg hx, List.takeWhile_cons_of_neg hx]

/-! ## Event classifier computation rules -/

@[simp] theorem isFiredFor_submitted (c c' : Nat) (r : Int) :
    isFiredFor c (Event.submitted c' r) = false := rfl

@[simp] theorem isFiredFor_fired (c c' : Nat) (r : Int) :
    isFiredFor c (Event.callbackFired c' r) = decide (c' = c) := rfl

@[simp] theorem isFiredFor_cancelReturned (c : Nat) (id r : Int) :
    isFiredFor c (Event.cancelReturned id r) = false := rfl

@[simp] theorem isSubmitFor_submitted (c c' : Nat) (r : Int) :
    isSubmitFor c (Event.submitted c' r) = decide (c' = c) := rfl

@[simp] theorem isSubmitFor_fired (c c' : Nat) (r : Int) :
    isSubmitFor c (Event.callbackFired c' r) = false := rfl

@[simp] theorem isSubmitFor_cancelReturned (c : Nat) (id r : Int) :
    isSubmitFor c (Event.cancelReturned id r) = false := rfl

@[simp] theorem isSubmitHandle_submitted (h c' : Nat) (r : Int) :
    isSubmitHandle h (Event.submitted c' r) = decide (r = (h : Int)) := rfl

@[simp] theorem isSubmitHandle_fired (h c' : Nat) (r : Int) :
    isSubmitHandle h (Event.callbackFired c' r) = false := rfl

@[simp] theorem isSubmitHandle_cancelReturned (h : Nat) (id r : Int) :
    isSubmitHandle h (Event.cancelReturned id r) = false := rfl

@[simp] theorem isCancelOkFor_submitted (h c' : Nat) (r : Int) :
    isCancelOkFor h (Event.submitted c' r) = false := rfl

@[simp] theorem isCancelOkFor_fired (h c' : Nat) (r : Int) :
    isCancelOkFor h (Event.callbackFired c' r) = false := rfl

@[simp] theorem isCancelOkFor_cancelReturned (h : Nat) (id r : Int) :
    isCancelOkFor h (Event.cancelReturned id r) = (decide (id = (h : Int)) && decide (r = 0)) := rfl

/-! ## Base case and congruence of the invariants -/

theorem stateInv_init (srv : List SocketAddress)
    (cache ans : List (String × SocketAddress)) : StateInv (initState srv cache ans) := by
  constructor <;> simp [initState, handlesOf, cbsOf]

theorem traceInv_nil (srv : List SocketAddress)
    (cache ans : List (String × SocketAddress)) : TraceInv [] (initState srv cache ans) := by
  constructor <;>
    simp [initState, submitCount, firedCount, submitHandleCount, cancelOkCount, recCount,
      firedBeforeReturn]

/-- `TraceInv` only looks at the operation table and the two fresh
counters. -/
theorem traceInv_congr {tr : List Event} {s s' : ResolverState} (h : TraceInv tr s)
    (ho : s'.outstanding = s.outstanding) (hh : s'.nextHandle = s.nextHandle)
    (hc : s'.nextCb = s.nextCb) : TraceInv tr s' := by
  refine ⟨?_, ?_, ?_, ?_, h.subOnce, h.cancelOnce, ?_, h.handleBinding, ?_, ?_, ?_, ?_⟩
  · intro c hle; exact h.subFresh c (by rw [hc] at hle; exact hle)
  · intro c hle; exact h.fireFresh c (by rw [hc] at hle; exact hle)
  · intro x hle; exact h.handleFreshSub x (by rw [hh] at hle; exact hle)
  · intro x hle; exact h.handleFreshCancel x (by rw [hh] at hle; exact hle)
  · intro r hr; exact h.recsSubmitted r (ho ▸ hr)
  · intro c hm
    have := h.outcomeZero c hm
    rw [recCount, ho]
    exact this
  · intro c ret hm hneg
    have := h.outcomeNeg c ret hm hneg
    rw [recCount, ho]
    exact this
  · intro c x hm hx
    have := h.outcomePos c x hm hx
    simp only [recCount, ho]
    exact this
  · intro c hm
    have := h.notSubmitted c hm
    rw [recCount, ho]
    exact this

/-- `StateInv` only looks at the operation table and the two fresh
counters. -/
theorem stateInv_congr {s s' : ResolverState} (h : StateInv s)
    (ho : s'.outstanding = s.outstanding) (hh : s'.nextHandle = s.nextHandle)
    (hc : s'.nextCb = s.nextCb) : StateInv s' := by
  refine ⟨?_, ?_, ?_, ?_, ?_, ?_⟩
  · rw [handlesOf, ho]; exact h.nodupH
  · rw [cbsOf, ho]; exact h.nodupC
  · intro r hr; exact h.hpos r (ho ▸ hr)
  · intro r hr; rw [hh]; exact h.hlt r (ho ▸ hr)
  · intro r hr; rw [hc]; exact h.clt r (ho ▸ hr)
  · rw [hh]; exact h.hstart

/-- Synchronous `gethostbyname` touches only the cache. -/
theorem gethostbyname_state (s : ResolverState) (host : String) (v : NsapiVersion) :
    (gethostbyname s host v).2.outstanding = s.outstanding
    ∧ (gethostbyname s host v).2.nextHandle = s.nextHandle
    ∧ (gethostbyname s host v).2.nextCb = s.nextCb
    ∧ (gethostbyname s host v).2.servers = s.servers := by
  unfold gethostbyname
  split
  · simp
  · split <;> simp

/-! ## Derived facts about traces -/

/-- A submission event makes the submission count positive. -/
theorem submitCount_pos_of_mem {tr : List Event} {c : Nat} {r : Int}
    (hm : Event.submitted c r ∈ tr) : 0 < submitCount tr c :=
  mem_le_countP _ tr _ hm (by simp)

/-- Two submission events for one callback carry the same return value. -/
theorem submit_ret_unique {tr : List Event} {c : Nat} {r₁ r₂ : Int}
    (h1 : submitCount tr c ≤ 1)
    (hm1 : Event.submitted c r₁ ∈ tr) (hm2 : Event.submitted c r₂ ∈ tr) : r₁ = r₂ := by
  by_contra hne
  have hd : Event.submitted c r₁ ≠ Event.submitted c r₂ := by
    intro he
    exact hne (by injection he)
  have := two_mem_le_countP (isSubmitFor c) tr _ _ hm1 hm2 hd (by simp) (by simp)
  rw [submitCount] at h1
  omega

/-- Submitted callback identifiers lie below the fresh counter. -/
theorem cb_lt_of_submitted {tr : List Event} {s : ResolverState} {c : Nat} {r : Int}
    (hT : TraceInv tr s) (hm : Event.submitted c r ∈ tr) : c < s.nextCb := by
  by_contra hge
  have h0 := hT.subFresh c (by omega)
  have h1 := submitCount_pos_of_mem hm
  omega

/-- A fresh callback identifier has no in-flight record. -/
theorem recCount_eq_zero_of_fresh {s : ResolverState} {n : Nat}
    (h : ∀ r ∈ s.outstanding, r.cbId < n) : recCount s n = 0 := by
  rw [recCount, List.countP_eq_zero]
  intro r hr
  have := h r hr
  simp
  omega

/-- A zero count survives passing to any subset. -/
theorem countP_eq_zero_of_subset {α : Type} (p : α → Bool) (l l' : List α)
    (hsub : ∀ a ∈ l', a ∈ l) (h : l.countP p = 0) : l'.countP p = 0 := by
  rw [List.countP_eq_zero] at h ⊢
  exact fun a ha => h a (hsub a ha)

/-- In a state with pairwise-distinct handles, records are determined by
their handle. -/
theorem handle_inj {s : ResolverState} (hS : StateInv s) {q q' : OpRecord}
    (hq : q ∈ s.outstanding) (hq' : q' ∈ s.outstanding)
    (hh : q.handle = q'.handle) : q = q' :=
  List.inj_on_of_nodup_map hS.nodupH hq hq' hh

/-- In a state with pairwise-distinct callback identifiers, records are
determined by their callback. -/
theorem cb_inj {s : ResolverState} (hS : StateInv s) {q q' : OpRecord}
    (hq : q ∈ s.outstanding) (hq' : q' ∈ s.outstanding)
    (hh : q.cbId = q'.cbId) : q = q' :=
  List.inj_on_of_nodup_map hS.nodupC hq hq' hh

/-- The key fact about an in-flight record: its submission event is in the
trace, its callback has not fired, and its handle has not been cancelled. -/
theorem record_pending {tr : List Event} {s : ResolverState} {r : OpRecord}
    (hS : StateInv s) (hT : TraceInv tr s) (hr : r ∈ s.outstanding) :
    Event.submitted r.cbId (r.handle : Int) ∈ tr
    ∧ firedCount tr r.cbId = 0 ∧ cancelOkCount tr r.handle = 0 := by
  have hsub := hT.recsSubmitted r hr
  have hpos := hS.hpos r hr
  rcases hT.outcomePos r.cbId r.handle hsub hpos with ⟨_, hf, hc⟩ | ⟨hrc, _⟩
  · exact ⟨hsub, hf, hc⟩
  · exfalso
    have : 0 < recCount s r.cbId := mem_le_countP _ _ r hr (by simp)
    omega

/-- Every event of a trace without a submission for `c` passes the
prefix-predicate of `firedBeforeReturn`. -/
theorem pred_true_of_no_submit {tr : List Event} {c : Nat}
    (h : submitCount tr c = 0) :
    ∀ e ∈ tr, (!(e == Event.submitted c 0)) = true := by
  intro e he
  rw [submitCount, List.countP_eq_zero] at h
  have hne := h e he
  simp only [Bool.not_eq_true', beq_eq_false_iff_ne, ne_eq]
  intro heq
  subst heq
  exact hne (by simp)

/-- Extending a trace does not move the invocation-before-return count once
the success-sentinel return is in the trace. -/
theorem firedBeforeReturn_append {tr evs : List Event} {c : Nat}
    (hm : Event.submitted c 0 ∈ tr) :
    firedBeforeReturn (tr ++ evs) c = firedBeforeReturn tr c := by
  unfold firedBeforeReturn
  rw [takeWhile_append_stable _ tr evs ⟨Event.submitted c 0, hm, by simp⟩]

/-! ## Preservation of the invariants, one step kind at a time -/

/-- A synchronously failing submission (negative return, no callback, no
handle) preserves the invariants. -/
theorem inv_submit_fail (s : ResolverState) (tr : List Event) (ret : Int) (hret : ret < 0)
    (hS : StateInv s) (hT : TraceInv tr s) :
    StateInv { s with nextCb := s.nextCb + 1 }
    ∧ TraceInv (tr ++ [Event.submitted s.nextCb ret]) { s with nextCb := s.nextCb + 1 } := by
  have hretne : ∀ x : Nat, ret ≠ (x : Int) := by intro x; omega
  have hret0 : ret ≠ 0 := by omega
  have hfc : ∀ c : Nat, firedCount (tr ++ [Event.submitted s.nextCb ret]) c = firedCount tr c := by
    intro c
    simp [firedCount, List.countP_append, List.countP_cons]
  have hcc : ∀ x : Nat,
      cancelOkCount (tr ++ [Event.submitted s.nextCb ret]) x = cancelOkCount tr x := by
    intro x
    simp [cancelOkCount, List.countP_append, List.countP_cons]
  have hhc : ∀ x : Nat,
      submitHandleCount (tr ++ [Event.submitted s.nextCb ret]) x = submitHandleCount tr x := by
    intro x
    simp [submitHandleCount, List.countP_append, List.countP_cons, hretne x]
  have hsc : ∀ c : Nat, c ≠ s.nextCb →
      submitCount (tr ++ [Event.submitted s.nextCb ret]) c = submitCount tr c := by
    intro c hcne
    simp [submitCount, List.countP_append, List.countP_cons, Ne.symm hcne]
  have hscnc :
      submitCount (tr ++ [Event.submitted s.nextCb ret]) s.nextCb = submitCount tr s.nextCb + 1 := by
    simp [submitCount, List.countP_append, List.countP_cons]
  have hmem : ∀ (c : Nat) (r : Int), Event.submitted c r ∈ tr ++ [Event.submitted s.nextCb ret] →
      Event.submitted c r ∈ tr ∨ (c = s.nextCb ∧ r = ret) := by
    intro c r hm
    rcases List.mem_append.mp hm with h | h
    · exact Or.inl h
    · right
      have he := List.mem_singleton.mp h
      injection he with h1 h2
      exact ⟨h1, h2⟩
  refine ⟨⟨hS.nodupH, hS.nodupC, hS.hpos, hS.hlt,
    fun r hr => Nat.lt_succ_of_lt (hS.clt r hr), hS.hstart⟩, ?_⟩
  refine ⟨?_, ?_, ?_, ?_, ?_, ?_, ?_, ?_, ?_, ?_, ?_, ?_⟩
  · intro c hle
    have h1 : s.nextCb + 1 ≤ c := hle
    rw [hsc c (by omega)]
    exact hT.subFresh c (by omega)
  · intro c hle
    have h1 : s.nextCb + 1 ≤ c := hle
    rw [hfc c]
    exact hT.fireFresh c (by omega)
  · intro x hle
    have h1 : s.nextHandle ≤ x := hle
    rw [hhc x]
    exact hT.handleFreshSub x h1
  · intro x hle
    have h1 : s.nextHandle ≤ x := hle
    rw [hcc x]
    exact hT.handleFreshCancel x h1
  · intro c
    by_cases hc : c = s.nextCb
    · subst hc
      rw [hscnc]
      have := hT.subFresh s.nextCb (le_refl _)
      omega
    · rw [hsc c hc]
      exact hT.subOnce c
  · intro x hx
    rw [hcc x]
    exact hT.cancelOnce x hx
  · intro r hr
    exact List.mem_append_left _ (hT.recsSubmitted r hr)
  · intro c c' x hx hm1 hm2
    rcases hmem c _ hm1 with h1 | ⟨_, h1⟩
    · rcases hmem c' _ hm2 with h2 | ⟨_, h2⟩
      · exact hT.handleBinding c c' x hx h1 h2
      · exact absurd h2.symm (hretne x)
    · exact absurd h1.symm (hretne x)
  · intro c hm
    rcases hmem c 0 hm with h1 | ⟨_, h2⟩
    · have hz := hT.outcomeZero c h1
      refine ⟨?_, ?_, ?_⟩
      · rw [hfc]
        exact hz.1
      · rw [firedBeforeReturn_append h1]
        exact hz.2.1
      · exact hz.2.2
    · exact absurd h2.symm hret0
  · intro c r hm hneg
    rcases hmem c r hm with h1 | ⟨hc, hr⟩
    · have hz := hT.outcomeNeg c r h1 hneg
      exact ⟨by rw [hfc]; exact hz.1, hz.2⟩
    · subst hc
      constructor
      · rw [hfc]
        exact hT.fireFresh _ (le_refl _)
      · exact recCount_eq_zero_of_fresh hS.clt
  · intro c x hm hx
    rcases hmem c _ hm with h1 | ⟨_, hxe⟩
    · rcases hT.outcomePos c x h1 hx with ⟨hrec, hf, hcl⟩ | ⟨hrc, hsum⟩
      · exact Or.inl ⟨hrec, by rw [hfc]; exact hf, by rw [hcc]; exact hcl⟩
      · exact Or.inr ⟨hrc, by rw [hfc, hcc]; exact hsum⟩
    · exact absurd hxe.symm (hretne x)
  · intro c h0
    by_cases hc : c = s.nextCb
    · subst hc
      rw [hscnc] at h0
      omega
    · rw [hsc c hc] at h0
      have hz := hT.notSubmitted c h0
      exact ⟨by rw [hfc]; exact hz.1, hz.2⟩

/-- A synchronously successful submission (callback invoked once, then the
success sentinel 0 returned, no handle) preserves the invariants. -/
theorem inv_submit_sync (s : ResolverState) (tr : List Event)
    (hS : StateInv s) (hT : TraceInv tr s) :
    StateInv { s with nextCb := s.nextCb + 1 }
    ∧ TraceInv (tr ++ [Event.callbackFired s.nextCb 0, Event.submitted s.nextCb 0])
        { s with nextCb := s.nextCb + 1 } := by
  have hfcne : ∀ c : Nat, c ≠ s.nextCb →
      firedCount (tr ++ [Event.callbackFired s.nextCb 0, Event.submitted s.nextCb 0]) c
        = firedCount tr c := by
    intro c hcne
    simp [firedCount, List.countP_append, List.countP_cons, Ne.symm hcne]
  have hfcnc :
      firedCount (tr ++ [Event.callbackFired s.nextCb 0, Event.submitted s.nextCb 0]) s.nextCb
        = firedCount tr s.nextCb + 1 := by
    simp [firedCount, List.countP_append, List.countP_cons]
  have hcc : ∀ x : Nat,
      cancelOkCount (tr ++ [Event.callbackFired s.nextCb 0, Event.submitted s.nextCb 0]) x
        = cancelOkCount tr x := by
    intro x
    simp [cancelOkCount, List.countP_append, List.countP_cons]
  have hhc : ∀ x : Nat, 0 < x →
      submitHandleCount (tr ++ [Event.callbackFired s.nextCb 0, Event.submitted s.nextCb 0]) x
        = submitHandleCount tr x := by
    intro x hx
    have hne : (0 : Int) ≠ (x : Int) := by omega
    simp [submitHandleCount, List.countP_append, List.countP_cons, hne]
  have hsc : ∀ c : Nat, c ≠ s.nextCb →
      submitCount (tr ++ [Event.callbackFired s.nextCb 0, Event.submitted s.nextCb 0]) c
        = submitCount tr c := by
    intro c hcne
    simp [submitCount, List.countP_append, List.countP_cons, Ne.symm hcne]
  have hscnc :
      submitCount (tr ++ [Event.callbackFired s.nextCb 0, Event.submitted s.nextCb 0]) s.nextCb
        = submitCount tr s.nextCb + 1 := by
    simp [submitCount, List.countP_append, List.countP_cons]
  have hmem : ∀ (c : Nat) (r : Int),
      Event.submitted c r ∈ tr ++ [Event.callbackFired s.nextCb 0, Event.submitted s.nextCb 0] →
      Event.submitted c r ∈ tr ∨ (c = s.nextCb ∧ r = 0) := by
    intro c r hm
    rcases List.mem_append.mp hm with h | h
    · exact Or.inl h
    · right
      rcases List.mem_cons.mp h with he | h'
      · exact absurd he (fun hh => Event.noConfusion hh)
      · have he := List.mem_singleton.mp h'
        injection he with h1 h2
        exact ⟨h1, h2⟩
  have hlt_of_mem : ∀ (c : Nat) (r : Int), Event.submitted c r ∈ tr → c ≠ s.nextCb := by
    intro c r hm hc
    have := cb_lt_of_submitted hT hm
    omega
  refine ⟨⟨hS.nodupH, hS.nodupC, hS.hpos, hS.hlt,
    fun r hr => Nat.lt_succ_of_lt (hS.clt r hr), hS.hstart⟩, ?_⟩
  refine ⟨?_, ?_, ?_, ?_, ?_, ?_, ?_, ?_, ?_, ?_, ?_, ?_⟩
  · intro c hle
    have h1 : s.nextCb + 1 ≤ c := hle
    rw [hsc c (by omega)]
    exact hT.subFresh c (by omega)
  · intro c hle
    have h1 : s.nextCb + 1 ≤ c := hle
    rw [hfcne c (by omega)]
    exact hT.fireFresh c (by omega)
  · intro x hle
    have h1 : s.nextHandle ≤ x := hle
    have hx : 0 < x := lt_of_lt_of_le hS.hstart h1
    rw [hhc x hx]
    exact hT.handleFreshSub x h1
  · intro x hle
    have h1 : s.nextHandle ≤ x := hle
    rw [hcc x]
    exact hT.handleFreshCancel x h1
  · intro c
    by_cases hc : c = s.nextCb
    · subst hc
      rw [hscnc]
      have := hT.subFresh s.nextCb (le_refl _)
      omega
    · rw [hsc c hc]
      exact hT.subOnce c
  · intro x hx
    rw [hcc x]
    exact hT.cancelOnce x hx
  · intro r hr
    exact List.mem_append_left _ (hT.recsSubmitted r hr)
  · intro c c' x hx hm1 hm2
    rcases hmem c _ hm1 with h1 | ⟨_, h1⟩
    · rcases hmem c' _ hm2 with h2 | ⟨_, h2⟩
      · exact hT.handleBinding c c' x hx h1 h2
      · exfalso
        omega
    · exfalso
      omega
  · intro c hm
    rcases hmem c 0 hm with h1 | ⟨hc, _⟩
    · have hz := hT.outcomeZero c h1
      refine ⟨?_, ?_, ?_⟩
      · rw [hfcne c (hlt_of_mem c 0 h1)]
        exact hz.1
      · rw [firedBeforeReturn_append h1]
        exact hz.2.1
      · exact hz.2.2
    · subst hc
      have hfresh := hT.subFresh s.nextCb (le_refl _)
      refine ⟨?_, ?_, ?_⟩
      · rw [hfcnc]
        have := hT.fireFresh s.nextCb (le_refl _)
        omega
      · unfold firedBeforeReturn
        rw [List.takeWhile_append_of_pos (pred_true_of_no_submit hfresh)]
        rw [List.takeWhile_cons_of_pos, List.takeWhile_cons_of_neg]
        · have h0 := hT.fireFresh s.nextCb (le_refl _)
          have he : firedCount (tr ++ [Event.callbackFired s.nextCb 0]) s.nextCb
              = firedCount tr s.nextCb + 1 := by
            simp [firedCount, List.countP_append, List.countP_cons]
          rw [he, h0]
        · simp
        · simp only [Bool.not_eq_eq_eq_not, Bool.not_true, beq_eq_false_iff_ne, ne_eq]
          exact fun hh => Event.noConfusion hh
      · exact recCount_eq_zero_of_fresh hS.clt
  · intro c r hm hneg
    rcases hmem c r hm with h1 | ⟨_, hr⟩
    · have hz := hT.outcomeNeg c r h1 hneg
      exact ⟨by rw [hfcne c (hlt_of_mem c r h1)]; exact hz.1, hz.2⟩
    · exfalso
      omega
  · intro c x hm hx
    rcases hmem c _ hm with h1 | ⟨_, hxe⟩
    · rcases hT.outcomePos c x h1 hx with ⟨hrec, hf, hcl⟩ | ⟨hrc, hsum⟩
      · exact Or.inl ⟨hrec, by rw [hfcne c (hlt_of_mem c _ h1)]; exact hf,
          by rw [hcc]; exact hcl⟩
      · exact Or.inr ⟨hrc, by rw [hfcne c (hlt_of_mem c _ h1), hcc]; exact hsum⟩
    · exfalso
      omega
  · intro c h0
    by_cases hc : c = s.nextCb
    · subst hc
      rw [hscnc] at h0
      omega
    · rw [hsc c hc] at h0
      have hz := hT.notSubmitted c h0
      exact ⟨by rw [hfcne c hc]; exact hz.1, hz.2⟩

/-- An accepted submission (positive fresh handle, operation recorded in
flight) preserves the invariants. -/
theorem inv_submit_pending (s : ResolverState) (tr : List Event)
    (hS : StateInv s) (hT : TraceInv tr s) :
    StateInv { s with
        outstanding := s.outstanding ++ [⟨s.nextHandle, s.nextCb⟩],
        nextHandle := s.nextHandle + 1, nextCb := s.nextCb + 1 }
    ∧ TraceInv (tr ++ [Event.submitted s.nextCb (s.nextHandle : Int)])
        { s with
            outstanding := s.outstanding ++ [⟨s.nextHandle, s.nextCb⟩],
            nextHandle := s.nextHandle + 1, nextCb := s.nextCb + 1 } := by
  have hnhpos : 0 < s.nextHandle := hS.hstart
  have hfc : ∀ c : Nat,
      firedCount (tr ++ [Event.submitted s.nextCb (s.nextHandle : Int)]) c = firedCount tr c := by
    intro c
    simp [firedCount, List.countP_append, List.countP_cons]
  have hcc : ∀ x : Nat,
      cancelOkCount (tr ++ [Event.submitted s.nextCb (s.nextHandle : Int)]) x
        = cancelOkCount tr x := by
    intro x
    simp [cancelOkCount, List.countP_append, List.countP_cons]
  have hhcx : ∀ x : Nat, x ≠ s.nextHandle →
      submitHandleCount (tr ++ [Event.submitted s.nextCb (s.nextHandle : Int)]) x
        = submitHandleCount tr x := by
    intro x hxne
    have hne : ((s.nextHandle : Nat) : Int) ≠ (x : Int) := by omega
    simp [submitHandleCount, List.countP_append, List.countP_cons, hne]
  have hsc : ∀ c : Nat, c ≠ s.nextCb →
      submitCount (tr ++ [Event.submitted s.nextCb (s.nextHandle : Int)]) c
        = submitCount tr c := by
    intro c hcne
    simp [submitCount, List.countP_append, List.countP_cons, Ne.symm hcne]
  have hscnc :
      submitCount (tr ++ [Event.submitted s.nextCb (s.nextHandle : Int)]) s.nextCb
        = submitCount tr s.nextCb + 1 := by
    simp [submitCount, List.countP_append, List.countP_cons]
  have hmem : ∀ (c : Nat) (r : Int),
      Event.submitted c r ∈ tr ++ [Event.submitted s.nextCb (s.nextHandle : Int)] →
      Event.submitted c r ∈ tr ∨ (c = s.nextCb ∧ r = (s.nextHandle : Int)) := by
    intro c r hm
    rcases List.mem_append.mp hm with h | h
    · exact Or.inl h
    · right
      have he := List.mem_singleton.mp h
      injection he with h1 h2
      exact ⟨h1, h2⟩
  have hrc : ∀ c : Nat, c ≠ s.nextCb →
      recCount { s with
        outstanding := s.outstanding ++ [⟨s.nextHandle, s.nextCb⟩],
        nextHandle := s.nextHandle + 1, nextCb := s.nextCb + 1 } c = recCount s c := by
    intro c hcne
    simp [recCount, List.countP_append, List.countP_cons, Ne.symm hcne]
  have hlt_of_mem : ∀ (c : Nat) (r : Int), Event.submitted c r ∈ tr → c ≠ s.nextCb := by
    intro c r hm hc
    have := cb_lt_of_submitted hT hm
    omega
  have hmap : handlesOf { s with
      outstanding := s.outstanding ++ [⟨s.nextHandle, s.nextCb⟩],
      nextHandle := s.nextHandle + 1, nextCb := s.nextCb + 1 }
      = handlesOf s ++ [s.nextHandle] := by
    simp [handlesOf]
  have hmapc : cbsOf { s with
      outstanding := s.outstanding ++ [⟨s.nextHandle, s.nextCb⟩],
      nextHandle := s.nextHandle + 1, nextCb := s.nextCb + 1 }
      = cbsOf s ++ [s.nextCb] := by
    simp [cbsOf]
  constructor
  · refine ⟨?_, ?_, ?_, ?_, ?_, ?_⟩
    · rw [hmap, List.nodup_append]
      refine ⟨hS.nodupH, List.nodup_singleton _, ?_⟩
      intro x hx hx'
      rcases List.mem_map.mp hx with ⟨r, hr, rfl⟩
      have h1 := hS.hlt r hr
      have h2 := List.mem_singleton.mp hx'
      omega
    · rw [hmapc, List.nodup_append]
      refine ⟨hS.nodupC, List.nodup_singleton _, ?_⟩
      intro x hx hx'
      rcases List.mem_map.mp hx with ⟨r, hr, rfl⟩
      have h1 := hS.clt r hr
      have h2 := List.mem_singleton.mp hx'
      omega
    · intro r hr
      rcases List.mem_append.mp hr with h | h
      · exact hS.hpos r h
      · rw [List.mem_singleton.mp h]
        exact hnhpos
    · intro r hr
      rcases List.mem_append.mp hr with h | h
      · have := hS.hlt r h
        show r.handle < s.nextHandle + 1
        omega
      · rw [List.mem_singleton.mp h]
        show s.nextHandle < s.nextHandle + 1
        omega
    · intro r hr
      rcases List.mem_append.mp hr with h | h
      · have := hS.clt r h
        show r.cbId < s.nextCb + 1
        omega
      · rw [List.mem_singleton.mp h]
        show s.nextCb < s.nextCb + 1
        omega
    · show 0 < s.nextHandle + 1
      omega
  refine ⟨?_, ?_, ?_, ?_, ?_, ?_, ?_, ?_, ?_, ?_, ?_, ?_⟩
  · intro c hle
    have h1 : s.nextCb + 1 ≤ c := hle
    rw [hsc c (by omega)]
    exact hT.subFresh c (by omega)
  · intro c hle
    have h1 : s.nextCb + 1 ≤ c := hle
    rw [hfc c]
    exact hT.fireFresh c (by omega)
  · intro x hle
    have h1 : s.nextHandle + 1 ≤ x := hle
    rw [hhcx x (by omega)]
    exact hT.handleFreshSub x (by omega)
  · intro x hle
    have h1 : s.nextHandle + 1 ≤ x := hle
    rw [hcc x]
    exact hT.handleFreshCancel x (by omega)
  · intro c
    by_cases hc : c = s.nextCb
    · subst hc
      rw [hscnc]
      have := hT.subFresh s.nextCb (le_refl _)
      omega
    · rw [hsc c hc]
      exact hT.subOnce c
  · intro x hx
    rw [hcc x]
    exact hT.cancelOnce x hx
  · intro r hr
    rcases List.mem_append.mp hr with h | h
    · exact List.mem_append_left _ (hT.recsSubmitted r h)
    · rw [List.mem_singleton.mp h]
      exact List.mem_append_right _ (List.mem_singleton.mpr rfl)
  · intro c c' x hx hm1 hm2
    rcases hmem c _ hm1 with h1 | ⟨hc1, hx1⟩
    · rcases hmem c' _ hm2 with h2 | ⟨hc2, hx2⟩
      · exact hT.handleBinding c c' x hx h1 h2
      · exfalso
        have hxh : x = s.nextHandle := by omega
        have h0 := hT.handleFreshSub s.nextHandle (le_refl _)
        have := mem_le_countP (isSubmitHandle s.nextHandle) tr _ h1 (by simp [hxh])
        unfold submitHandleCount at h0
        omega
    · rcases hmem c' _ hm2 with h2 | ⟨hc2, hx2⟩
      · exfalso
        have hxh : x = s.nextHandle := by omega
        have h0 := hT.handleFreshSub s.nextHandle (le_refl _)
        have := mem_le_countP (isSubmitHandle s.nextHandle) tr _ h2 (by simp [hxh])
        unfold submitHandleCount at h0
        omega
      · rw [hc1, hc2]
  · intro c hm
    rcases hmem c 0 hm with h1 | ⟨_, h2⟩
    · have hz := hT.outcomeZero c h1
      refine ⟨by rw [hfc]; exact hz.1, by rw [firedBeforeReturn_append h1]; exact hz.2.1, ?_⟩
      rw [hrc c (hlt_of_mem c 0 h1)]
      exact hz.2.2
    · exfalso
      omega
  · intro c r hm hneg
    rcases hmem c r hm with h1 | ⟨_, hr⟩
    · have hz := hT.outcomeNeg c r h1 hneg
      refine ⟨by rw [hfc]; exact hz.1, ?_⟩
      rw [hrc c (hlt_of_mem c r h1)]
      exact hz.2
    · exfalso
      omega
  · intro c x hm hx
    rcases hmem c _ hm with h1 | ⟨hc1, hx1⟩
    · rcases hT.outcomePos c x h1 hx with ⟨hrec, hf, hcl⟩ | ⟨hrc0, hsum⟩
      · exact Or.inl ⟨List.mem_append_left _ hrec, by rw [hfc]; exact hf,
          by rw [hcc]; exact hcl⟩
      · refine Or.inr ⟨?_, by rw [hfc, hcc]; exact hsum⟩
        rw [hrc c (hlt_of_mem c _ h1)]
        exact hrc0
    · have hxh : x = s.nextHandle := by omega
      subst hxh
      subst hc1
      refine Or.inl ⟨List.mem_append_right _ (List.mem_singleton.mpr rfl), ?_, ?_⟩
      · rw [hfc]
        exact hT.fireFresh s.nextCb (le_refl _)
      · rw [hcc]
        exact hT.handleFreshCancel s.nextHandle (le_refl _)
  · intro c h0
    by_cases hc : c = s.nextCb
    · subst hc
      rw [hscnc] at h0
      omega
    · rw [hsc c hc] at h0
      have hz := hT.notSubmitted c h0
      refine ⟨by rw [hfc]; exact hz.1, ?_⟩
      rw [hrc c hc]
      exact hz.2

/-- Arrival of the underlying DNS answer for an in-flight operation: the
callback fires once and the operation is retired.  Preserves the
invariants. -/
theorem inv_step_response (s : ResolverState) (tr : List Event) (r : OpRecord) (result : Int)
    (hS : StateInv s) (hT : TraceInv tr s) (hmem_r : r ∈ s.outstanding) :
    StateInv { s with outstanding := s.outstanding.filter (fun q => !(q.handle == r.handle)) }
    ∧ TraceInv (tr ++ [Event.callbackFired r.cbId result])
        { s with outstanding := s.outstanding.filter (fun q => !(q.handle == r.handle)) } := by
  obtain ⟨hsubr, hfr, hcr⟩ := record_pending hS hT hmem_r
  have hposr := hS.hpos r hmem_r
  have hcltr := hS.clt r hmem_r
  have hretu : ∀ rr : Int, Event.submitted r.cbId rr ∈ tr → rr = (r.handle : Int) :=
    fun rr hm => submit_ret_unique (hT.subOnce r.cbId) hm hsubr
  have hfcne : ∀ c : Nat, c ≠ r.cbId →
      firedCount (tr ++ [Event.callbackFired r.cbId result]) c = firedCount tr c := by
    intro c hcne
    simp [firedCount, List.countP_append, List.countP_cons, Ne.symm hcne]
  have hfcnc : firedCount (tr ++ [Event.callbackFired r.cbId result]) r.cbId
      = firedCount tr r.cbId + 1 := by
    simp [firedCount, List.countP_append, List.countP_cons]
  have hcc : ∀ x : Nat, cancelOkCount (tr ++ [Event.callbackFired r.cbId result]) x
      = cancelOkCount tr x := by
    intro x
    simp [cancelOkCount, List.countP_append, List.countP_cons]
  have hhc : ∀ x : Nat, submitHandleCount (tr ++ [Event.callbackFired r.cbId result]) x
      = submitHandleCount tr x := by
    intro x
    simp [submitHandleCount, List.countP_append, List.countP_cons]
  have hsc : ∀ c : Nat, submitCount (tr ++ [Event.callbackFired r.cbId result]) c
      = submitCount tr c := by
    intro c
    simp [submitCount, List.countP_append, List.countP_cons]
  have hmemS : ∀ (c : Nat) (rr : Int),
      Event.submitted c rr ∈ tr ++ [Event.callbackFired r.cbId result] →
      Event.submitted c rr ∈ tr := by
    intro c rr hm
    rcases List.mem_append.mp hm with h | h
    · exact h
    · exact absurd (List.mem_singleton.mp h) (fun hh => Event.noConfusion hh)
  have hsubset : ∀ q ∈ s.outstanding.filter (fun q => !(q.handle == r.handle)),
      q ∈ s.outstanding := fun q hq => List.mem_of_mem_filter hq
  have hrcz : ∀ c : Nat, recCount s c = 0 →
      recCount { s with outstanding := s.outstanding.filter (fun q => !(q.handle == r.handle)) } c
        = 0 := by
    intro c h0
    exact countP_eq_zero_of_subset _ _ _ hsubset h0
  have hrcr : recCount { s with
      outstanding := s.outstanding.filter (fun q => !(q.handle == r.handle)) } r.cbId = 0 := by
    rw [recCount, List.countP_eq_zero]
    intro q hq
    have hq1 := List.mem_filter.mp hq
    intro hbeq
    have hqc : q.cbId = r.cbId := by simpa using hbeq
    have hqr : q = r := cb_inj hS hq1.1 hmem_r hqc
    rw [hqr] at hq1
    simp at hq1
  have hsurv : ∀ q ∈ s.outstanding, q.cbId ≠ r.cbId →
      q ∈ s.outstanding.filter (fun q => !(q.handle == r.handle)) := by
    intro q hq hne
    refine List.mem_filter.mpr ⟨hq, ?_⟩
    have hqh : q.handle ≠ r.handle := by
      intro hh
      exact hne (congrArg OpRecord.cbId (handle_inj hS hq hmem_r hh))
    simp [hqh]
  have hcne_of_sub : ∀ (c : Nat) (rr : Int), Event.submitted c rr ∈ tr → rr ≤ 0 →
      c ≠ r.cbId := by
    intro c rr hm hle hc
    subst hc
    have := hretu rr hm
    omega
  refine ⟨⟨?_, ?_, ?_, ?_, ?_, hS.hstart⟩, ?_⟩
  · exact List.Nodup.sublist ((List.filter_sublist _).map _) hS.nodupH
  · exact List.Nodup.sublist ((List.filter_sublist _).map _) hS.nodupC
  · intro q hq
    exact hS.hpos q (hsubset q hq)
  · intro q hq
    exact hS.hlt q (hsubset q hq)
  · intro q hq
    exact hS.clt q (hsubset q hq)
  refine ⟨?_, ?_, ?_, ?_, ?_, ?_, ?_, ?_, ?_, ?_, ?_, ?_⟩
  · intro c hle
    rw [hsc c]
    exact hT.subFresh c hle
  · intro c hle
    have h1 : s.nextCb ≤ c := hle
    rw [hfcne c (by omega)]
    exact hT.fireFresh c hle
  · intro x hle
    rw [hhc x]
    exact hT.handleFreshSub x hle
  · intro x hle
    rw [hcc x]
    exact hT.handleFreshCancel x hle
  · intro c
    rw [hsc c]
    exact hT.subOnce c
  · intro x hx
    rw [hcc x]
    exact hT.cancelOnce x hx
  · intro q hq
    exact List.mem_append_left _ (hT.recsSubmitted q (hsubset q hq))
  · intro c c' x hx hm1 hm2
    exact hT.handleBinding c c' x hx (hmemS c _ hm1) (hmemS c' _ hm2)
  · intro c hm
    have h1 := hmemS c 0 hm
    have hz := hT.outcomeZero c h1
    refine ⟨?_, ?_, ?_⟩
    · rw [hfcne c (hcne_of_sub c 0 h1 (by omega))]
      exact hz.1
    · rw [firedBeforeReturn_append h1]
      exact hz.2.1
    · exact hrcz c hz.2.2
  · intro c rr hm hneg
    have h1 := hmemS c rr hm
    have hz := hT.outcomeNeg c rr h1 hneg
    refine ⟨?_, hrcz c hz.2⟩
    rw [hfcne c (hcne_of_sub c rr h1 (by omega))]
    exact hz.1
  · intro c x hm hx
    have h1 := hmemS c _ hm
    by_cases hc : c = r.cbId
    · subst hc
      have hxe := hretu _ h1
      have hxh : x = r.handle := by omega
      subst hxh
      refine Or.inr ⟨hrcr, ?_⟩
      rw [hfcnc, hcc, hfr, hcr]
    · rcases hT.outcomePos c x h1 hx with ⟨hrec, hf, hcl⟩ | ⟨hrc0, hsum⟩
      · refine Or.inl ⟨?_, by rw [hfcne c hc]; exact hf, by rw [hcc]; exact hcl⟩
        exact hsurv _ hrec (by simpa using hc)
      · exact Or.inr ⟨hrcz c hrc0, by rw [hfcne c hc, hcc]; exact hsum⟩
  · intro c h0
    rw [hsc c] at h0
    have hz := hT.notSubmitted c h0
    have hcrq : c ≠ r.cbId := by
      intro hc
      subst hc
      have := submitCount_pos_of_mem hsubr
      omega
    exact ⟨by rw [hfcne c hcrq]; exact hz.1, hrcz c hz.2⟩

/-- A failed cancel (unknown, completed or already cancelled handle)
changes nothing: the history invariant carries over. -/
theorem inv_cancel_fail (s : ResolverState) (tr : List Event) (id : Int)
    (hT : TraceInv tr s) :
    TraceInv (tr ++ [Event.cancelReturned id NSAPI_ERROR_PARAMETER]) s := by
  have hfc : ∀ c : Nat, firedCount (tr ++ [Event.cancelReturned id NSAPI_ERROR_PARAMETER]) c
      = firedCount tr c := by
    intro c
    simp [firedCount, List.countP_append, List.countP_cons]
  have hcc : ∀ x : Nat, cancelOkCount (tr ++ [Event.cancelReturned id NSAPI_ERROR_PARAMETER]) x
      = cancelOkCount tr x := by
    intro x
    simp [cancelOkCount, List.countP_append, List.countP_cons, NSAPI_ERROR_PARAMETER]
  have hhc : ∀ x : Nat, submitHandleCount (tr ++ [Event.cancelReturned id NSAPI_ERROR_PARAMETER]) x
      = submitHandleCount tr x := by
    intro x
    simp [submitHandleCount, List.countP_append, List.countP_cons]
  have hsc : ∀ c : Nat, submitCount (tr ++ [Event.cancelReturned id NSAPI_ERROR_PARAMETER]) c
      = submitCount tr c := by
    intro c
    simp [submitCount, List.countP_append, List.countP_cons]
  have hmemS : ∀ (c : Nat) (rr : Int),
      Event.submitted c rr ∈ tr ++ [Event.cancelReturned id NSAPI_ERROR_PARAMETER] →
      Event.submitted c rr ∈ tr := by
    intro c rr hm
    rcases List.mem_append.mp hm with h | h
    · exact h
    · exact absurd (List.mem_singleton.mp h) (fun hh => Event.noConfusion hh)
  refine ⟨?_, ?_, ?_, ?_, ?_, ?_, ?_, ?_, ?_, ?_, ?_, ?_⟩
  · intro c hle
    rw [hsc c]
    exact hT.subFresh c hle
  · intro c hle
    rw [hfc c]
    exact hT.fireFresh c hle
  · intro x hle
    rw [hhc x]
    exact hT.handleFreshSub x hle
  · intro x hle
    rw [hcc x]
    exact hT.handleFreshCancel x hle
  · intro c
    rw [hsc c]
    exact hT.subOnce c
  · intro x hx
    rw [hcc x]
    exact hT.cancelOnce x hx
  · intro q hq
    exact List.mem_append_left _ (hT.recsSubmitted q hq)
  · intro c c' x hx hm1 hm2
    exact hT.handleBinding c c' x hx (hmemS c _ hm1) (hmemS c' _ hm2)
  · intro c hm
    have h1 := hmemS c 0 hm
    have hz := hT.outcomeZero c h1
    exact ⟨by rw [hfc c]; exact hz.1, by rw [firedBeforeReturn_append h1]; exact hz.2.1, hz.2.2⟩
  · intro c rr hm hneg
    have h1 := hmemS c rr hm
    have hz := hT.outcomeNeg c rr h1 hneg
    exact ⟨by rw [hfc c]; exact hz.1, hz.2⟩
  · intro c x hm hx
    have h1 := hmemS c _ hm
    rcases hT.outcomePos c x h1 hx with ⟨hrec, hf, hcl⟩ | ⟨hrc0, hsum⟩
    · exact Or.inl ⟨hrec, by rw [hfc c]; exact hf, by rw [hcc x]; exact hcl⟩
    · exact Or.inr ⟨hrc0, by rw [hfc c, hcc x]; exact hsum⟩
  · intro c h0
    rw [hsc c] at h0
    have hz := hT.notSubmitted c h0
    exact ⟨by rw [hfc c]; exact hz.1, hz.2⟩

/-- A successful cancel retires the matching record, returns 0 and never
fires the callback.  Preserves the invariants. -/
theorem inv_cancel_hit (s : ResolverState) (tr : List Event) (r : OpRecord)
    (hS : StateInv s) (hT : TraceInv tr s) (hmem_r : r ∈ s.outstanding) :
    StateInv { s with
        outstanding := s.outstanding.filter (fun q => !((q.handle : Int) == (r.handle : Int))) }
    ∧ TraceInv (tr ++ [Event.cancelReturned (r.handle : Int) 0])
        { s with
            outstanding :=
              s.outstanding.filter (fun q => !((q.handle : Int) == (r.handle : Int))) } := by
  obtain ⟨hsubr, hfr, hcr⟩ := record_pending hS hT hmem_r
  have hposr := hS.hpos r hmem_r
  have hltr := hS.hlt r hmem_r
  have hretu : ∀ rr : Int, Event.submitted r.cbId rr ∈ tr → rr = (r.handle : Int) :=
    fun rr hm => submit_ret_unique (hT.subOnce r.cbId) hm hsubr
  have hfc : ∀ c : Nat, firedCount (tr ++ [Event.cancelReturned (r.handle : Int) 0]) c
      = firedCount tr c := by
    intro c
    simp [firedCount, List.countP_append, List.countP_cons]
  have hccne : ∀ x : Nat, x ≠ r.handle →
      cancelOkCount (tr ++ [Event.cancelReturned (r.handle : Int) 0]) x
        = cancelOkCount tr x := by
    intro x hxne
    have hne : ((r.handle : Nat) : Int) ≠ (x : Int) := by omega
    simp [cancelOkCount, List.countP_append, List.countP_cons, hne]
  have hccr : cancelOkCount (tr ++ [Event.cancelReturned (r.handle : Int) 0]) r.handle
      = cancelOkCount tr r.handle + 1 := by
    simp [cancelOkCount, List.countP_append, List.countP_cons]
  have hhc : ∀ x : Nat, submitHandleCount (tr ++ [Event.cancelReturned (r.handle : Int) 0]) x
      = submitHandleCount tr x := by
    intro x
    simp [submitHandleCount, List.countP_append, List.countP_cons]
  have hsc : ∀ c : Nat, submitCount (tr ++ [Event.cancelReturned (r.handle : Int) 0]) c
      = submitCount tr c := by
    intro c
    simp [submitCount, List.countP_append, List.countP_cons]
  have hmemS : ∀ (c : Nat) (rr : Int),
      Event.submitted c rr ∈ tr ++ [Event.cancelReturned (r.handle : Int) 0] →
      Event.submitted c rr ∈ tr := by
    intro c rr hm
    rcases List.mem_append.mp hm with h | h
    · exact h
    · exact absurd (List.mem_singleton.mp h) (fun hh => Event.noConfusion hh)
  have hsubset : ∀ q ∈ s.outstanding.filter (fun q => !((q.handle : Int) == (r.handle : Int))),
      q ∈ s.outstanding := fun q hq => List.mem_of_mem_filter hq
  have hrcz : ∀ c : Nat, recCount s c = 0 →
      recCount { s with
        outstanding := s.outstanding.filter (fun q => !((q.handle : Int) == (r.handle : Int))) } c
        = 0 := by
    intro c h0
    exact countP_eq_zero_of_subset _ _ _ hsubset h0
  have hrcr : recCount { s with
      outstanding := s.outstanding.filter (fun q => !((q.handle : Int) == (r.handle : Int))) }
        r.cbId = 0 := by
    rw [recCount, List.countP_eq_zero]
    intro q hq
    have hq1 := List.mem_filter.mp hq
    intro hbeq
    have hqc : q.cbId = r.cbId := by simpa using hbeq
    have hqr : q = r := cb_inj hS hq1.1 hmem_r hqc
    rw [hqr] at hq1
    simp at hq1
  have hsurv : ∀ q ∈ s.outstanding, q.cbId ≠ r.cbId →
      q ∈ s.outstanding.filter (fun q => !((q.handle : Int) == (r.handle : Int))) := by
    intro q hq hne
    refine List.mem_filter.mpr ⟨hq, ?_⟩
    have hqh : q.handle ≠ r.handle := by
      intro hh
      exact hne (congrArg OpRecord.cbId (handle_inj hS hq hmem_r hh))
    have hqi : ((q.handle : Nat) : Int) ≠ ((r.handle : Nat) : Int) := by omega
    simp [hqi]
  refine ⟨⟨?_, ?_, ?_, ?_, ?_, hS.hstart⟩, ?_⟩
  · exact List.Nodup.sublist ((List.filter_sublist _).map _) hS.nodupH
  · exact List.Nodup.sublist ((List.filter_sublist _).map _) hS.nodupC
  · intro q hq
    exact hS.hpos q (hsubset q hq)
  · intro q hq
    exact hS.hlt q (hsubset q hq)
  · intro q hq
    exact hS.clt q (hsubset q hq)
  refine ⟨?_, ?_, ?_, ?_, ?_, ?_, ?_, ?_, ?_, ?_, ?_, ?_⟩
  · intro c hle
    rw [hsc c]
    exact hT.subFresh c hle
  · intro c hle
    rw [hfc c]
    exact hT.fireFresh c hle
  · intro x hle
    rw [hhc x]
    exact hT.handleFreshSub x hle
  · intro x hle
    have h1 : s.nextHandle ≤ x := hle
    rw [hccne x (by omega)]
    exact hT.handleFreshCancel x hle
  · intro c
    rw [hsc c]
    exact hT.subOnce c
  · intro x hx
    by_cases hxe : x = r.handle
    · subst hxe
      rw [hccr, hcr]
    · rw [hccne x hxe]
      exact hT.cancelOnce x hx
  · intro q hq
    exact List.mem_append_left _ (hT.recsSubmitted q (hsubset q hq))
  · intro c c' x hx hm1 hm2
    exact hT.handleBinding c c' x hx (hmemS c _ hm1) (hmemS c' _ hm2)
  · intro c hm
    have h1 := hmemS c 0 hm
    have hz := hT.outcomeZero c h1
    exact ⟨by rw [hfc c]; exact hz.1, by rw [firedBeforeReturn_append h1]; exact hz.2.1,
      hrcz c hz.2.2⟩
  · intro c rr hm hneg
    have h1 := hmemS c rr hm
    have hz := hT.outcomeNeg c rr h1 hneg
    exact ⟨by rw [hfc c]; exact hz.1, hrcz c hz.2⟩
  · intro c x hm hx
    have h1 := hmemS c _ hm
    by_cases hc : c = r.cbId
    · subst hc
      have hxe := hretu _ h1
      have hxh : x = r.handle := by omega
      subst hxh
      refine Or.inr ⟨hrcr, ?_⟩
      rw [hfc, hccr, hfr, hcr]
    · have hxne : x ≠ r.handle := by
        intro hxe
        apply hc
        apply hT.handleBinding c r.cbId x hx h1
        rw [hxe]
        exact hsubr
      rcases hT.outcomePos c x h1 hx with ⟨hrec, hf, hcl⟩ | ⟨hrc0, hsum⟩
      · refine Or.inl ⟨?_, by rw [hfc c]; exact hf, by rw [hccne x hxne]; exact hcl⟩
        exact hsurv _ hrec (by simpa using hc)
      · exact Or.inr ⟨hrcz c hrc0, by rw [hfc c, hccne x hxne]; exact hsum⟩
  · intro c h0
    rw [hsc c] at h0
    have hz := hT.notSubmitted c h0
    exact ⟨by rw [hfc c]; exact hz.1, hrcz c hz.2⟩

/-- Every resolver step preserves the structural and history invariants. -/
theorem inv_step {s s2 : ResolverState} {evs : List Event} (tr : List Event)
    (hstep : Step s evs s2) (hS : StateInv s) (hT : TraceInv tr s) :
    StateInv s2 ∧ TraceInv (tr ++ evs) s2 := by
  cases hstep with
  | submit host v =>
    by_cases hh : host = ""
    · have hret : NSAPI_ERROR_PARAMETER < 0 := by norm_num [NSAPI_ERROR_PARAMETER]
      have hmain := inv_submit_fail s tr NSAPI_ERROR_PARAMETER hret hS hT
      simpa [gethostbyname_async, hh] using hmain
    · cases him : immediateAnswer s host v with
      | some a =>
        have hmain := inv_submit_sync s tr hS hT
        simpa [gethostbyname_async, hh, him] using hmain
      | none =>
        have hmain := inv_submit_pending s tr hS hT
        simpa [gethostbyname_async, hh, him] using hmain
  | response r result hmem hres =>
    exact inv_step_response s tr r result hS hT hmem
  | cancel id =>
    cases hany : s.outstanding.any (fun q => (q.handle : Int) == id) with
    | true =>
      obtain ⟨r, hmem_r, hbeq⟩ := List.any_eq_true.mp hany
      have hid : (r.handle : Int) = id := by simpa using hbeq
      subst hid
      have hmain := inv_cancel_hit s tr r hS hT hmem_r
      simpa [gethostbyname_async_cancel, hany] using hmain
    | false =>
      have hmain := inv_cancel_fail s tr id hT
      have hgoal : StateInv s ∧
          TraceInv (tr ++ [Event.cancelReturned id NSAPI_ERROR_PARAMETER]) s := ⟨hS, hmain⟩
      simpa [gethostbyname_async_cancel, hany] using hgoal
  | sync host v =>
    have hg := gethostbyname_state s host v
    refine ⟨stateInv_congr hS hg.1 hg.2.1 hg.2.2.1, ?_⟩
    rw [List.append_nil]
    exact traceInv_congr hT hg.1 hg.2.1 hg.2.2.1
  | addServer a =>
    refine ⟨stateInv_congr hS rfl rfl rfl, ?_⟩
    rw [List.append_nil]
    exact traceInv_congr hT rfl rfl rfl

/-- The master induction: along every reachable trace both invariants
hold. -/
theorem trace_inv {srv : List SocketAddress} {cache ans : List (String × SocketAddress)}
    {tr : List Event} {s : ResolverState}
    (h : Trace (initState srv cache ans) tr s) : StateInv s ∧ TraceInv tr s := by
  induction h with
  | refl => exact ⟨stateInv_init srv cache ans, traceInv_nil srv cache ans⟩
  | step h1 h2 ih => exact inv_step _ h2 ih.1 ih.2

/-! ## The claims -/

/-- C1: For every call to `gethostbyname_async` that returns a positive
value, that value is an operation handle whose submission reaches at most
one terminal outcome over any run (callback invocation or successful
cancellation, never both, never twice); once the operation is no longer
outstanding it has reached exactly one terminal outcome; and while it is
outstanding the callback-firing completion step is always available, so
the callback is invoked exactly once in the future unless the operation is
cancelled first. -/
theorem gethostbyname_async_positive_unique_terminal
    (srv : List SocketAddress) (cache ans : List (String × SocketAddress))
    (tr : List Event) (s : ResolverState) (c x : Nat)
    (htr : Trace (initState srv cache ans) tr s)
    (hsub : Event.submitted c (x : Int) ∈ tr) (hpos : 0 < x) :
    firedCount tr c + cancelOkCount tr x ≤ 1
    ∧ ((∀ r ∈ s.outstanding, r.cbId ≠ c) → firedCount tr c + cancelOkCount tr x = 1)
    ∧ (∀ r ∈ s.outstanding, r.cbId = c →
        ∃ s2 : ResolverState, Step s [Event.callbackFired c 0] s2) := by
  obtain ⟨hS, hT⟩ := trace_inv htr
  have henabled : ∀ r ∈ s.outstanding, r.cbId = c →
      ∃ s2 : ResolverState, Step s [Event.callbackFired c 0] s2 := by
    intro r hr hrc
    have hstep := Step.response s r 0 hr (le_refl 0)
    rw [hrc] at hstep
    exact ⟨_, hstep⟩
  rcases hT.outcomePos c x hsub hpos with ⟨hrec, hf, hcl⟩ | ⟨hrc0, hsum⟩
  · refine ⟨by omega, ?_, henabled⟩
    intro hnone
    exact absurd rfl (hnone _ hrec)
  · exact ⟨by omega, fun _ => hsum, henabled⟩

/-- Witness for C1 at a concrete run: one accepted submission, handle 1,
not yet completed — the terminal-outcome count is at most one. -/
theorem gethostbyname_async_positive_unique_terminal_witness :
    firedCount [Event.submitted 0 (1 : Int)] 0
      + cancelOkCount [Event.submitted 0 (1 : Int)] 1 ≤ 1 :=
  (gethostbyname_async_positive_unique_terminal [] [] [] [Event.submitted 0 (1 : Int)]
    ⟨[⟨1, 0⟩], 2, 1, [], [], []⟩ 0 1
    (Trace.step (Trace.refl (initState [] [] []))
      (Step.submit (initState [] [] []) "x" NsapiVersion.UNSPEC))
    (by simp) (by omega)).1

/-- C2: For every call to `gethostbyname_async` that returns the success
sentinel 0, the callback has been invoked exactly once, and strictly
before the call returned; moreover no operation handle is issued (the
return value for this submission is only ever 0, and no record is in
flight for it). -/
theorem gethostbyname_async_zero_callback_before_return
    (srv : List SocketAddress) (cache ans : List (String × SocketAddress))
    (tr : List Event) (s : ResolverState) (c : Nat)
    (htr : Trace (initState srv cache ans) tr s)
    (hsub : Event.submitted c 0 ∈ tr) :
    firedCount tr c = 1
    ∧ firedBeforeReturn tr c = 1
    ∧ (∀ ret : Int, Event.submitted c ret ∈ tr → ret = 0)
    ∧ (∀ r ∈ s.outstanding, r.cbId ≠ c) := by
  obtain ⟨hS, hT⟩ := trace_inv htr
  obtain ⟨h1, h2, h3⟩ := hT.outcomeZero c hsub
  refine ⟨h1, h2, ?_, ?_⟩
  · intro ret hm
    exact submit_ret_unique (hT.subOnce c) hm hsub
  · intro r hr hrc
    have hpos := mem_le_countP (fun q => q.cbId == c) s.outstanding r hr (by simp [hrc])
    rw [recCount] at h3
    omega

/-- Witness for C2 at a concrete run: submitting the literal "192.0.2.7"
completes synchronously; the callback fired exactly once before the
return event. -/
theorem gethostbyname_async_zero_callback_before_return_witness :
    firedCount [Event.callbackFired 0 0, Event.submitted 0 0] 0 = 1
    ∧ firedBeforeReturn [Event.callbackFired 0 0, Event.submitted 0 0] 0 = 1 :=
  have h := gethostbyname_async_zero_callback_before_return [] [] []
    [Event.callbackFired 0 0, Event.submitted 0 0] ⟨[], 1, 1, [], [], []⟩ 0
    (Trace.step (Trace.refl (initState [] [] []))
      (Step.submit (initState [] [] []) "192.0.2.7" NsapiVersion.UNSPEC))
    (by simp)
  ⟨h.1, h.2.1⟩

/-- C3: For every call to `gethostbyname_async` that returns a negative
value, the callback is never invoked — not before the call returns and
not afterwards — and no operation is in flight for it. -/
theorem gethostbyname_async_negative_no_callback
    (srv : List SocketAddress) (cache ans : List (String × SocketAddress))
    (tr : List Event) (s : ResolverState) (c : Nat) (ret : Int)
    (htr : Trace (initState srv cache ans) tr s)
    (hsub : Event.submitted c ret ∈ tr) (hneg : ret < 0) :
    firedCount tr c = 0 ∧ (∀ r ∈ s.outstanding, r.cbId ≠ c) := by
  obtain ⟨hS, hT⟩ := trace_inv htr
  obtain ⟨h1, h2⟩ := hT.outcomeNeg c ret hsub hneg
  refine ⟨h1, ?_⟩
  intro r hr hrc
  have hpos := mem_le_countP (fun q => q.cbId == c) s.outstanding r hr (by simp [hrc])
  rw [recCount] at h2
  omega

/-- Witness for C3 at a concrete run: submitting the empty hostname fails
synchronously with a negative code and the callback never fires. -/
theorem gethostbyname_async_negative_no_callback_witness :
    firedCount [Event.submitted 0 (-3003 : Int)] 0 = 0 :=
  (gethostbyname_async_negative_no_callback [] [] [] [Event.submitted 0 (-3003 : Int)]
    ⟨[], 1, 1, [], [], []⟩ 0 (-3003)
    (Trace.step (Trace.refl (initState [] [] []))
      (Step.submit (initState [] [] []) "" NsapiVersion.UNSPEC))
    (by simp) (by omega)).1

/-- C4: For every handle on which `gethostbyname_async_cancel` returned
success, the callback bound to that handle at submission never fires in
the whole run — in particular not after the cancel returns, even if the
underlying DNS response arrives later. -/
theorem gethostbyname_async_cancel_success_no_callback
    (srv : List SocketAddress) (cache ans : List (String × SocketAddress))
    (tr : List Event) (s : ResolverState) (c x : Nat)
    (htr : Trace (initState srv cache ans) tr s)
    (hpos : 0 < x) (hsub : Event.submitted c (x : Int) ∈ tr)
    (hcancel : Event.cancelReturned (x : Int) 0 ∈ tr) :
    firedCount tr c = 0 := by
  obtain ⟨hS, hT⟩ := trace_inv htr
  have hcpos : 0 < cancelOkCount tr x :=
    mem_le_countP _ tr _ hcancel (by simp)
  rcases hT.outcomePos c x hsub hpos with ⟨_, hf, hcl⟩ | ⟨_, hsum⟩
  · exact hf
  · omega

/-- Witness for C4 at a concrete run: submit (handle 1), cancel handle 1
successfully; the callback count is zero. -/
theorem gethostbyname_async_cancel_success_no_callback_witness :
    firedCount [Event.submitted 0 (1 : Int), Event.cancelReturned (1 : Int) 0] 0 = 0 :=
  gethostbyname_async_cancel_success_no_callback [] [] []
    [Event.submitted 0 (1 : Int), Event.cancelReturned (1 : Int) 0]
    ⟨[], 2, 1, [], [], []⟩ 0 1
    (Trace.step
      (Trace.step (Trace.refl (initState [] [] []))
        (Step.submit (initState [] [] []) "x" NsapiVersion.UNSPEC))
      (Step.cancel ⟨[⟨1, 0⟩], 2, 1, [], [], []⟩ 1))
    (by omega) (by simp) (by simp)

/-- C5: Cancelling a handle that is not outstanding (unknown, already
completed or already cancelled) returns a failure code and has no side
effect; after a successful cancel a repeated cancel of the same handle
fails and changes nothing; a handle is successfully cancelled at most
once in a run, and after a successful cancel the bound callback never
fires. -/
theorem gethostbyname_async_cancel_retired_fails_idempotent
    (srv : List SocketAddress) (cache ans : List (String × SocketAddress))
    (tr : List Event) (s : ResolverState) (id : Int)
    (htr : Trace (initState srv cache ans) tr s) :
    ((∀ r ∈ s.outstanding, (r.handle : Int) ≠ id) →
      gethostbyname_async_cancel s id = (NSAPI_ERROR_PARAMETER, s))
    ∧ (∀ s2 : ResolverState, gethostbyname_async_cancel s id = (NSAPI_ERROR_OK, s2) →
      gethostbyname_async_cancel s2 id = (NSAPI_ERROR_PARAMETER, s2))
    ∧ (∀ x : Nat, 0 < x → cancelOkCount tr x ≤ 1)
    ∧ (∀ (c x : Nat), 0 < x → Event.submitted c (x : Int) ∈ tr →
        Event.cancelReturned (x : Int) 0 ∈ tr → firedCount tr c = 0) := by
  obtain ⟨hS, hT⟩ := trace_inv htr
  refine ⟨?_, ?_, hT.cancelOnce, ?_⟩
  · intro hnone
    have hfalse : ¬(s.outstanding.any (fun r => (r.handle : Int) == id) = true) := by
      intro hany
      obtain ⟨r, hr, hbeq⟩ := List.any_eq_true.mp hany
      exact hnone r hr (by simpa using hbeq)
    unfold gethostbyname_async_cancel
    rw [if_neg hfalse]
  · intro s2 heq
    cases hany : s.outstanding.any (fun r => (r.handle : Int) == id) with
    | false =>
      exfalso
      unfold gethostbyname_async_cancel at heq
      rw [if_neg (by rw [hany]; exact Bool.false_ne_true)] at heq
      have := congrArg Prod.fst heq
      norm_num [NSAPI_ERROR_PARAMETER, NSAPI_ERROR_OK] at this
    | true =>
      unfold gethostbyname_async_cancel at heq
      rw [if_pos hany] at heq
      have hs2 := congrArg Prod.snd heq
      simp only at hs2
      have hfalse2 : ¬(s2.outstanding.any (fun r => (r.handle : Int) == id) = true) := by
        intro hany2
        obtain ⟨r, hr, hbeq⟩ := List.any_eq_true.mp hany2
        rw [← hs2] at hr
        have hr2 := List.mem_filter.mp hr
        rw [hbeq] at hr2
        simp at hr2
      unfold gethostbyname_async_cancel
      rw [if_neg hfalse2]
  · intro c x hx hsub hcancel
    have hcpos : 0 < cancelOkCount tr x :=
      mem_le_countP _ tr _ hcancel (by simp)
    rcases hT.outcomePos c x hsub hx with ⟨_, hf, hcl⟩ | ⟨_, hsum⟩
    · exact hf
    · omega

/-- Witness for C5 at a concrete run: cancelling the never-issued handle
5 in the initial state fails with `NSAPI_ERROR_PARAMETER` and leaves the
state untouched. -/
theorem gethostbyname_async_cancel_retired_fails_idempotent_witness :
    gethostbyname_async_cancel (initState [] [] []) 5
      = (NSAPI_ERROR_PARAMETER, initState [] [] []) :=
  (gethostbyname_async_cancel_retired_fails_idempotent [] [] [] [] (initState [] [] []) 5
    (Trace.refl (initState [] [] []))).1 (by simp [initState])

/-- C6: For every hostname that parses as a textual IP literal of the
requested family (or of any family when the version is `UNSPEC`),
synchronous `gethostbyname` fills the destination with the parsed address,
returns success, sends zero datagrams, and leaves the resolver state
untouched. -/
theorem gethostbyname_literal_fast_path
    (s : ResolverState) (host : String) (v : NsapiVersion) (a : SocketAddress)
    (hlit : ipLiteralOf v host = some a) :
    (gethostbyname s host v).1 = ⟨NSAPI_ERROR_OK, some a, 0⟩
    ∧ (gethostbyname s host v).2 = s := by
  unfold gethostbyname
  rw [hlit]
  exact ⟨rfl, rfl⟩

/-- Witness for C6 at the concrete literal "192.0.2.7": success, the
destination holds the V4 bytes 192.0.2.7, and zero datagrams are sent. -/
theorem gethostbyname_literal_fast_path_witness :
    (gethostbyname (initState [] [] []) "192.0.2.7" NsapiVersion.UNSPEC).1
      = ⟨NSAPI_ERROR_OK, some ⟨IpFamily.V4, [192, 0, 2, 7], 0⟩, 0⟩ :=
  (gethostbyname_literal_fast_path (initState [] [] []) "192.0.2.7" NsapiVersion.UNSPEC
    ⟨IpFamily.V4, [192, 0, 2, 7], 0⟩ (by decide)).1

/-- C7: Synchronous `gethostbyname` writes through the caller-supplied
destination if and only if it returns success; on failure (negative
return) the destination is untouched. -/
theorem gethostbyname_writes_iff_success
    (s : ResolverState) (host : String) (v : NsapiVersion) :
    ((gethostbyname s host v).1.written.isSome
      ↔ (gethostbyname s host v).1.ret = NSAPI_ERROR_OK)
    ∧ ((gethostbyname s host v).1.ret < 0 → (gethostbyname s host v).1.written = none) := by
  unfold gethostbyname
  split
  · simp [NSAPI_ERROR_OK]
  · split
    · simp [NSAPI_ERROR_OK]
    · simp [NSAPI_ERROR_OK, NSAPI_ERROR_DNS_FAILURE]

/-- Witness for C7 at a concrete failing resolve (no upstream server):
the return is negative and the destination was not written. -/
theorem gethostbyname_writes_iff_success_witness :
    (gethostbyname (initState [] [] []) "x" NsapiVersion.UNSPEC).1.written = none :=
  (gethostbyname_writes_iff_success (initState [] [] []) "x" NsapiVersion.UNSPEC).2
    (by decide)

/-- C8: In every reachable state the outstanding handles are pairwise
distinct positive integers, and a submission that returns a positive
value returns a handle different from every handle still outstanding
(reuse can only happen after retirement). -/
theorem outstanding_handles_positive_nodup_fresh
    (srv : List SocketAddress) (cache ans : List (String × SocketAddress))
    (tr : List Event) (s : ResolverState)
    (htr : Trace (initState srv cache ans) tr s) :
    (handlesOf s).Nodup
    ∧ (∀ r ∈ s.outstanding, 0 < r.handle)
    ∧ (∀ (host : String) (v : NsapiVersion), 0 < (gethostbyname_async s host v).1 →
        ∀ r ∈ s.outstanding, (r.handle : Int) ≠ (gethostbyname_async s host v).1) := by
  obtain ⟨hS, hT⟩ := trace_inv htr
  refine ⟨hS.nodupH, hS.hpos, ?_⟩
  intro host v hpos r hr
  have hlt := hS.hlt r hr
  by_cases hh : host = ""
  · simp [gethostbyname_async, hh, NSAPI_ERROR_PARAMETER] at hpos
  · cases him : immediateAnswer s host v with
    | some a => simp [gethostbyname_async, hh, him, NSAPI_ERROR_OK] at hpos
    | none =>
      simp only [gethostbyname_async, hh, him, if_neg] at hpos ⊢
      simp only [ite_false, if_neg hh]
      omega

/-- Witness for C8 in the initial state: the (empty) handle set is
duplicate-free. -/
theorem outstanding_handles_positive_nodup_fresh_witness :
    (handlesOf (initState [] [] [])).Nodup :=
  (outstanding_handles_positive_nodup_fresh [] [] [] [] (initState [] [] [])
    (Trace.refl (initState [] [] []))).1

/-- C9: For every id at most zero — values the plain `int` parameter
admits but that are never issued as handles — `gethostbyname_async_cancel`
returns a negative error code and leaves the state untouched, so no
operation is retired and no callback is affected. -/
theorem gethostbyname_async_cancel_nonpositive_id
    (srv : List SocketAddress) (cache ans : List (String × SocketAddress))
    (tr : List Event) (s : ResolverState) (id : Int)
    (htr : Trace (initState srv cache ans) tr s) (hle : id ≤ 0) :
    (gethostbyname_async_cancel s id).1 < 0
    ∧ (gethostbyname_async_cancel s id).2 = s := by
  obtain ⟨hS, hT⟩ := trace_inv htr
  have hfalse : ¬(s.outstanding.any (fun r => (r.handle : Int) == id) = true) := by
    intro hany
    obtain ⟨r, hr, hbeq⟩ := List.any_eq_true.mp hany
    have h1 := hS.hpos r hr
    have h2 : (r.handle : Int) = id := by simpa using hbeq
    omega
  unfold gethostbyname_async_cancel
  rw [if_neg hfalse]
  refine ⟨by norm_num [NSAPI_ERROR_PARAMETER], rfl⟩

/-- Witness for C9 at the concrete id 0 in the initial state. -/
theorem gethostbyname_async_cancel_nonpositive_id_witness :
    (gethostbyname_async_cancel (initState [] [] []) 0).1 < 0 :=
  (gethostbyname_async_cancel_nonpositive_id [] [] [] [] (initState [] [] []) 0
    (Trace.refl (initState [] [] [])) (by omega)).1

/-- C10: The resolution operations `gethostbyname`, `gethostbyname_async`
and `gethostbyname_async_cancel` leave the upstream DNS server list
unchanged; only `add_dns_server` mutates it, by appending the given
address; and no resolver step changes it other than by such an append. -/
theorem dns_server_list_frame
    (s : ResolverState) (host : String) (v v2 : NsapiVersion) (id : Int) (a : SocketAddress) :
    (gethostbyname s host v).2.servers = s.servers
    ∧ (gethostbyname_async s host v2).2.2.servers = s.servers
    ∧ (gethostbyname_async_cancel s id).2.servers = s.servers
    ∧ (add_dns_server s a).2.servers = s.servers ++ [a]
    ∧ (∀ (evs : List Event) (s2 : ResolverState), Step s evs s2 →
        s2.servers = s.servers ∨ ∃ b : SocketAddress, s2.servers = s.servers ++ [b]) := by
  have hasync : ∀ (host2 : String) (v3 : NsapiVersion),
      (gethostbyname_async s host2 v3).2.2.servers = s.servers := by
    intro host2 v3
    unfold gethostbyname_async
    split
    · rfl
    · split <;> rfl
  have hcancel : ∀ id2 : Int, (gethostbyname_async_cancel s id2).2.servers = s.servers := by
    intro id2
    unfold gethostbyname_async_cancel
    split <;> rfl
  refine ⟨(gethostbyname_state s host v).2.2.2, hasync host v2, hcancel id, rfl, ?_⟩
  intro evs s2 hstep
  cases hstep with
  | submit host3 v3 => exact Or.inl (hasync host3 v3)
  | response r result hmem hres => exact Or.inl rfl
  | cancel id3 => exact Or.inl (hcancel id3)
  | sync host3 v3 => exact Or.inl (gethostbyname_state s host3 v3).2.2.2
  | addServer b => exact Or.inr ⟨b, rfl⟩

/-- Witness for C10's step-level frame at a concrete `add_dns_server`
step. -/
theorem dns_server_list_frame_witness :
    (add_dns_server (initState [] [] []) ⟨IpFamily.V4, [8, 8, 8, 8], 0⟩).2.servers
        = (initState [] [] []).servers
    ∨ ∃ b : SocketAddress,
        (add_dns_server (initState [] [] []) ⟨IpFamily.V4, [8, 8, 8, 8], 0⟩).2.servers
          = (initState [] [] []).servers ++ [b] :=
  (dns_server_list_frame (initState [] [] []) "x" NsapiVersion.UNSPEC NsapiVersion.UNSPEC 0
    ⟨IpFamily.V4, [8, 8, 8, 8], 0⟩).2.2.2.2 [] _
    (Step.addServer (initState [] [] []) ⟨IpFamily.V4, [8, 8, 8, 8], 0⟩)

end DnsModel
